import Mathlib

/-!
Shallow embedding of the datatype-specific hash support functions of
src/backend/access/hash/hashfunc.c.

Modelling conventions:
* The external uniform hash primitives declared in utils/hashutils.h
  (hash_uint32, hash_uint32_extended, hash_any, hash_any_extended) are not
  part of this source slice; per the specification they are collaborators
  with an interface only.  Every embedded hasher therefore takes the
  primitive as an explicit function argument:
  - a plain 32-bit integer primitive   h  : Nat → Nat        (argument: the uint32 key)
  - a seeded 32-bit integer primitive  h2 : Nat → Nat → Nat  (key, uint64 seed)
  - a plain byte-span primitive        h  : List Nat → Nat   (argument: the byte span)
  - a seeded byte-span primitive       h2 : List Nat → Nat → Nat
  A property proved for all such primitives holds in particular for the
  real ones.
* Signed C integers (int16, int32, int64) are embedded as mathematical
  integers (Int) carrying their numeric value, with explicit range
  hypotheses where a theorem needs them.  C casts between widths are
  embedded as the bit-pattern operations they perform: a cast to uint32 of
  a value v is (v % 2^32).toNat, and the 64-bit two-complement pattern of
  v is (v % 2^64).toNat.
* Unsigned quantities (uint32 keys, uint64 seeds, Oid) and raw bytes are
  embedded as Nat.
* IEEE-754 floats are embedded by their bit patterns (Nat below 2^32 for
  float4, below 2^64 for float8); see the float section for the encoding
  of the zero test and of widening.
-/

/-- Cast of a signed C integer to uint32: the low 32 bits of its
two-complement pattern.  Embeds the implicit conversions in
hash_uint32((int32) ...) calls of hashfunc.c. -/
def toU32 (v : Int) : Nat := (v % 4294967296).toNat

/-- The 64-bit two-complement bit pattern of an int64 value. -/
def pat64 (v : Int) : Nat := (v % 18446744073709551616).toNat

/-- hashint2 (hashfunc.c lines 56-60): hash_uint32((int32) key).  The cast
int16 → int32 is sign extension, numerically the identity; the int32 is
then passed to the uint32 parameter of the primitive. -/
def hashint2 (h : Nat → Nat) (v : Int) : Nat := h (toU32 v)

/-- hashint2extended (hashfunc.c lines 62-66). -/
def hashint2extended (h2 : Nat → Nat → Nat) (v : Int) (seed : Nat) : Nat :=
  h2 (toU32 v) seed

/-- hashint4 (hashfunc.c lines 68-72): hash_uint32(key). -/
def hashint4 (h : Nat → Nat) (v : Int) : Nat := h (toU32 v)

/-- hashint4extended (hashfunc.c lines 74-78). -/
def hashint4extended (h2 : Nat → Nat → Nat) (v : Int) (seed : Nat) : Nat :=
  h2 (toU32 v) seed

/-- lohalf of hashint8: (uint32) val, the low 32 bits of the pattern. -/
def lohalf64 (v : Int) : Nat := pat64 v % 4294967296

/-- hihalf of hashint8: (uint32)(val >> 32).  The arithmetic right shift
keeps bits 63..32 of the pattern in the low word and sign-fills the high
word; the cast to uint32 then retains exactly bits 63..32, i.e. the high
word of the 64-bit pattern. -/
def hihalf64 (v : Int) : Nat := pat64 v / 4294967296

/-- Bitwise complement of a uint32 value x (all 32 bits flipped). -/
def complU32 (x : Nat) : Nat := 4294967295 - x

/-- The 32-bit fold of hashint8: lohalf ^= (val >= 0) ? hihalf : ~hihalf. -/
def fold64 (v : Int) : Nat :=
  lohalf64 v ^^^ (if 0 ≤ v then hihalf64 v else complU32 (hihalf64 v))

/-- hashint8 (hashfunc.c lines 80-98): fold the int64 into 32 bits, then
hash_uint32 on the folded value. -/
def hashint8 (h : Nat → Nat) (v : Int) : Nat := h (fold64 v)

/-- hashint8extended (hashfunc.c lines 100-111): same fold, then
hash_uint32_extended with the caller seed. -/
def hashint8extended (h2 : Nat → Nat → Nat) (v : Int) (seed : Nat) : Nat :=
  h2 (fold64 v) seed

/-- The fold as the specification words it: low half XOR high half for a
non-negative value, low half XOR bitwise complement of the high half for a
negative value.  Stated independently of fold64 for the refinement claim C2. -/
def foldSpec64 (v : Int) : Nat :=
  if 0 ≤ v then lohalf64 v ^^^ hihalf64 v
  else lohalf64 v ^^^ complU32 (hihalf64 v)

/-- hashoid (hashfunc.c lines 113-117): hash_uint32((uint32) key); the cast
of an Oid (already uint32) is the identity. -/
def hashoid (h : Nat → Nat) (v : Nat) : Nat := h v

/-- hashoidextended (hashfunc.c lines 119-123). -/
def hashoidextended (h2 : Nat → Nat → Nat) (v : Nat) (seed : Nat) : Nat := h2 v seed

/-- hashenum (hashfunc.c lines 125-129): hash_uint32((uint32) key). -/
def hashenum (h : Nat → Nat) (v : Nat) : Nat := h v

/-- hashenumextended (hashfunc.c lines 131-135). -/
def hashenumextended (h2 : Nat → Nat → Nat) (v : Nat) (seed : Nat) : Nat := h2 v seed

-- Helper lemmas on the 64-bit fold.

theorem hihalf64_of_nonneg_small (v : Int) (h0 : 0 ≤ v) (h1 : v < 2147483648) :
    hihalf64 v = 0 := by
  unfold hihalf64 pat64
  omega

theorem hihalf64_of_neg_small (v : Int) (h0 : -2147483648 ≤ v) (h1 : v < 0) :
    hihalf64 v = 4294967295 := by
  unfold hihalf64 pat64
  omega

theorem lohalf64_eq_toU32 (v : Int) : lohalf64 v = toU32 v := by
  unfold lohalf64 pat64 toU32
  omega

/-- For a 64-bit value representable in 32 bits the fold reduces to the low
32 bits: the implied high half is all-zero (non-negative) or all-one
(negative), so the xor is with zero either way. -/
theorem fold64_small (v : Int) (h0 : -2147483648 ≤ v) (h1 : v < 2147483648) :
    fold64 v = toU32 v := by
  unfold fold64
  rcases le_or_lt 0 v with hv | hv
  · rw [if_pos hv, hihalf64_of_nonneg_small v hv h1, Nat.xor_zero, lohalf64_eq_toU32]
  · rw [if_neg (by omega), hihalf64_of_neg_small v h0 hv]
    unfold complU32
    rw [show (4294967295 - 4294967295 : Nat) = 0 from rfl, Nat.xor_zero,
      lohalf64_eq_toU32]

theorem foldSpec64_eq_fold64 (v : Int) : foldSpec64 v = fold64 v := by
  unfold foldSpec64 fold64
  rcases le_or_lt 0 v with hv | hv
  · rw [if_pos hv, if_pos hv]
  · rw [if_neg (by omega), if_neg (by omega)]

/-- C1: for numerically equal signed integers of widths 16, 32 and 64 bits
the plain hashers agree (hashint2 with hashint4 after sign extension, and
hashint8 with hashint4 for values representable in 32 bits), and for every
seed the seeded variants agree likewise, whatever the uniform primitive. -/
theorem int_hash_cross_width (h : Nat → Nat) (h2 : Nat → Nat → Nat)
    (a v : Int) (s : Nat)
    (ha0 : -32768 ≤ a) (ha1 : a < 32768)
    (hv0 : -2147483648 ≤ v) (hv1 : v < 2147483648) :
    (hashint2 h a = hashint4 h a ∧
      hashint2extended h2 a s = hashint4extended h2 a s) ∧
    (hashint8 h v = hashint4 h v ∧
      hashint8extended h2 v s = hashint4extended h2 v s) := by
  refine ⟨⟨rfl, rfl⟩, ?_, ?_⟩
  · unfold hashint8 hashint4
    rw [fold64_small v hv0 hv1]
  · unfold hashint8extended hashint4extended
    rw [fold64_small v hv0 hv1]

/-- C1 witness at a = -5, v = -70000, s = 3 with concrete primitives. -/
theorem int_hash_cross_width_witness :
    (hashint2 (fun n => n + 7) (-5) = hashint4 (fun n => n + 7) (-5) ∧
      hashint2extended (fun n s => n + s) (-5) 3
        = hashint4extended (fun n s => n + s) (-5) 3) ∧
    (hashint8 (fun n => n + 7) (-70000) = hashint4 (fun n => n + 7) (-70000) ∧
      hashint8extended (fun n s => n + s) (-70000) 3
        = hashint4extended (fun n s => n + s) (-70000) 3) :=
  int_hash_cross_width (fun n => n + 7) (fun n s => n + s) (-5) (-70000) 3
    (by decide) (by decide) (by decide) (by decide)

/-- C2: for every 64-bit value the hashers pass to the 32-bit primitive
exactly the fold low XOR high (value non-negative) or low XOR complement
of high (value negative), plain and seeded; consequently, for a value
representable in 32 bits the fold equals the low 32 bits of the value. -/
theorem int8_fold_shape (h : Nat → Nat) (h2 : Nat → Nat → Nat) (v : Int) (s : Nat) :
    (hashint8 h v = h (foldSpec64 v) ∧
      hashint8extended h2 v s = h2 (foldSpec64 v) s) ∧
    (-2147483648 ≤ v → v < 2147483648 → foldSpec64 v = lohalf64 v) := by
  refine ⟨⟨?_, ?_⟩, ?_⟩
  · unfold hashint8; rw [foldSpec64_eq_fold64]
  · unfold hashint8extended; rw [foldSpec64_eq_fold64]
  · intro hv0 hv1
    rw [foldSpec64_eq_fold64, fold64_small v hv0 hv1, lohalf64_eq_toU32]

/-- C2 witness: the fold shape at the genuinely 64-bit value -2^35 - 9,
and the low-32-bits consequence at v = -70000 (in 32-bit range), s = 11,
with concrete primitives. -/
theorem int8_fold_shape_witness :
    (hashint8 (fun n => n * 2) (-34359738377)
        = (fun n => n * 2) (foldSpec64 (-34359738377)) ∧
      hashint8extended (fun n s => n * 2 + s) (-34359738377) 11
        = (fun n s => n * 2 + s) (foldSpec64 (-34359738377)) 11) ∧
    foldSpec64 (-70000) = lohalf64 (-70000) :=
  ⟨(int8_fold_shape (fun n => n * 2) (fun n s => n * 2 + s) (-34359738377) 11).1,
    (int8_fold_shape (fun n => n * 2) (fun n s => n * 2 + s) (-70000) 11).2
      (by decide) (by decide)⟩

/-- C10: the enumeration-label hashers are extensionally the
object-identifier hashers, plain and seeded. -/
theorem enum_hash_eq_oid_hash (h : Nat → Nat) (h2 : Nat → Nat → Nat)
    (v : Nat) (s : Nat) :
    hashenum h v = hashoid h v ∧ hashenumextended h2 v s = hashoidextended h2 v s :=
  ⟨rfl, rfl⟩

/-!
Floating point section.  A float4 value is embedded as its IEEE-754
binary32 bit pattern (a Nat below 2^32: sign bit 31, exponent bits 30-23,
fraction bits 22-0); a float8 value as its binary64 pattern (sign bit 63,
exponent bits 62-52, fraction bits 51-0).  The C test key == 0 is IEEE
comparison with zero, which holds exactly when all bits except the sign
bit are clear (true for +0 and -0, false for every other pattern, NaN
included); it is embedded as pattern % 2^31 = 0 (resp. % 2^63 = 0).
hash_any reads the value as a byte span; bytes are listed little-endian
(a single fixed build target, as the specification scopes it).
-/

/-- IEEE comparison of a binary32 pattern with zero: true exactly for the
two zero patterns 0 and 2^31. -/
def f4IsZero (w : Nat) : Prop := w % 2147483648 = 0

/-- IEEE comparison of a binary64 pattern with zero. -/
def f8IsZero (d : Nat) : Prop := d % 9223372036854775808 = 0

/-- NaN test on a binary32 pattern: exponent field all ones, fraction
field non-zero. -/
def f4IsNaN (w : Nat) : Prop := w / 8388608 % 256 = 255 ∧ w % 8388608 ≠ 0

/-- NaN test on a binary64 pattern. -/
def f8IsNaN (d : Nat) : Prop :=
  d / 4503599627370496 % 2048 = 2047 ∧ d % 4503599627370496 ≠ 0

/-- The eight bytes of a binary64 pattern, little-endian: the span
hash_any((unsigned char *) &key, sizeof(key)) reads. -/
def bytes8 (d : Nat) : List Nat :=
  [d % 256, d / 256 % 256, d / 65536 % 256, d / 16777216 % 256,
   d / 4294967296 % 256, d / 1099511627776 % 256,
   d / 281474976710656 % 256, d / 72057594037927936 % 256]

/-- The C conversion key8 = key from float4 to float8 on bit patterns
(exact, as every binary32 value is representable in binary64): zeros map
to zeros, subnormals are normalized (leading-bit position via Nat.log2),
infinities and NaNs map to exponent field 2047 with the fraction shifted
into the wider field, and normal values are rebiased (exponent + 896) with
the fraction shifted by 29 bits. -/
def widenF4 (w : Nat) : Nat :=
  if w / 8388608 % 256 = 0 then
    (if w % 8388608 = 0 then w / 2147483648 * 9223372036854775808
     else w / 2147483648 * 9223372036854775808
       + (Nat.log2 (w % 8388608) + 874) * 4503599627370496
       + (w % 8388608 - 2 ^ Nat.log2 (w % 8388608))
         * 2 ^ (52 - Nat.log2 (w % 8388608)))
  else if w / 8388608 % 256 = 255 then
    w / 2147483648 * 9223372036854775808
      + 2047 * 4503599627370496 + w % 8388608 * 536870912
  else
    w / 2147483648 * 9223372036854775808
      + (w / 8388608 % 256 + 896) * 4503599627370496 + w % 8388608 * 536870912

/-- hashfloat4 (hashfunc.c lines 137-161): return 0 on the zero test,
otherwise widen to float8 and hash the byte span of the widened value. -/
def hashfloat4 (h : List Nat → Nat) (w : Nat) : Nat :=
  if w % 2147483648 = 0 then 0 else h (bytes8 (widenF4 w))

/-- hashfloat4extended (hashfunc.c lines 163-176): return the seed on the
zero test, otherwise hash_any_extended over the widened byte span. -/
def hashfloat4extended (h2 : List Nat → Nat → Nat) (w : Nat) (seed : Nat) : Nat :=
  if w % 2147483648 = 0 then seed else h2 (bytes8 (widenF4 w)) seed

/-- hashfloat8 (hashfunc.c lines 178-192). -/
def hashfloat8 (h : List Nat → Nat) (d : Nat) : Nat :=
  if d % 9223372036854775808 = 0 then 0 else h (bytes8 d)

/-- hashfloat8extended (hashfunc.c lines 194-205). -/
def hashfloat8extended (h2 : List Nat → Nat → Nat) (d : Nat) (seed : Nat) : Nat :=
  if d % 9223372036854775808 = 0 then seed else h2 (bytes8 d) seed

/-- Widening preserves the zero test: the widened pattern passes the
binary64 zero test exactly when the binary32 pattern passes the binary32
zero test.  Zeros map to sign-only patterns; every other branch puts a
non-zero value below 2^63 into the exponent and fraction fields. -/
theorem widenF4_zero_iff (w : Nat) :
    (widenF4 w % 9223372036854775808 = 0 ↔ w % 2147483648 = 0) := by
  unfold widenF4
  by_cases he : w / 8388608 % 256 = 0
  · rw [if_pos he]
    by_cases hm : w % 8388608 = 0
    · rw [if_pos hm]
      constructor
      · intro _; omega
      · intro _; omega
    · rw [if_neg hm]
      have hk22 : Nat.log2 (w % 8388608) ≤ 22 := by
        have := (Nat.log2_lt hm).mpr (show w % 8388608 < 2 ^ 23 by omega)
        omega
      have hlow : 2 ^ Nat.log2 (w % 8388608) ≤ w % 8388608 := Nat.log2_self_le hm
      have hhigh : w % 8388608 < 2 ^ (Nat.log2 (w % 8388608) + 1) := Nat.lt_log2_self
      have hfrac : (w % 8388608 - 2 ^ Nat.log2 (w % 8388608))
          * 2 ^ (52 - Nat.log2 (w % 8388608)) < 4503599627370496 := by
        have h1 : w % 8388608 - 2 ^ Nat.log2 (w % 8388608)
            < 2 ^ Nat.log2 (w % 8388608) := by
          have : 2 ^ (Nat.log2 (w % 8388608) + 1)
              = 2 * 2 ^ Nat.log2 (w % 8388608) := by
            rw [pow_succ]; ring
          omega
        calc (w % 8388608 - 2 ^ Nat.log2 (w % 8388608))
              * 2 ^ (52 - Nat.log2 (w % 8388608))
            < 2 ^ Nat.log2 (w % 8388608) * 2 ^ (52 - Nat.log2 (w % 8388608)) :=
              (Nat.mul_lt_mul_right (Nat.pos_pow_of_pos _ (by norm_num))).mpr h1
          _ = 2 ^ (Nat.log2 (w % 8388608) + (52 - Nat.log2 (w % 8388608))) := by
              rw [pow_add]
          _ = 2 ^ 52 := by congr 1; omega
          _ = 4503599627370496 := by norm_num
      constructor
      · intro hz
        exfalso
        have hkb : (Nat.log2 (w % 8388608) + 874) * 4503599627370496
            ≤ 896 * 4503599627370496 := by
          apply Nat.mul_le_mul_right; omega
        have hkb2 : 874 * 4503599627370496
            ≤ (Nat.log2 (w % 8388608) + 874) * 4503599627370496 := by
          apply Nat.mul_le_mul_right; omega
        omega
      · intro hz; omega
  · rw [if_neg he]
    by_cases h255 : w / 8388608 % 256 = 255
    · rw [if_pos h255]
      constructor
      · intro hz; omega
      · intro hz; omega
    · rw [if_neg h255]
      constructor
      · intro hz
        exfalso
        have h1 : 1 ≤ w / 8388608 % 256 := by omega
        have h2 : w / 8388608 % 256 ≤ 254 := by omega
        have hkb : (w / 8388608 % 256 + 896) * 4503599627370496
            ≤ 1150 * 4503599627370496 := by
          apply Nat.mul_le_mul_right; omega
        have hkb2 : 897 * 4503599627370496
            ≤ (w / 8388608 % 256 + 896) * 4503599627370496 := by
          apply Nat.mul_le_mul_right; omega
        omega
      · intro hz; omega

/-- C3: on zero of either sign the plain float hashers return the fixed
code 0 whatever the byte-hash primitive, and the seeded variants return
the seed unchanged, for both widths (patterns 0 and 2^31 for float4,
0 and 2^63 for float8). -/
theorem float_zero_fixed_code (h : List Nat → Nat) (h2 : List Nat → Nat → Nat)
    (s : Nat) :
    (hashfloat4 h 0 = 0 ∧ hashfloat4 h 2147483648 = 0 ∧
      hashfloat4extended h2 0 s = s ∧ hashfloat4extended h2 2147483648 s = s) ∧
    (hashfloat8 h 0 = 0 ∧ hashfloat8 h 9223372036854775808 = 0 ∧
      hashfloat8extended h2 0 s = s ∧
      hashfloat8extended h2 9223372036854775808 s = s) := by
  refine ⟨⟨?_, ?_, ?_, ?_⟩, ?_, ?_, ?_, ?_⟩ <;> rfl

/-- C4: a non-zero float4 hashes exactly as the float8 it widens to, plain
and seeded, whatever the byte-hash primitive: the float4 path widens and
hashes the widened byte span, and the widened value fails the float8 zero
test as well. -/
theorem float4_widen_agrees (h : List Nat → Nat) (h2 : List Nat → Nat → Nat)
    (w s : Nat) (hnz : ¬ f4IsZero w) :
    hashfloat4 h w = hashfloat8 h (widenF4 w) ∧
    hashfloat4extended h2 w s = hashfloat8extended h2 (widenF4 w) s := by
  unfold f4IsZero at hnz
  have h8 : ¬ (widenF4 w % 9223372036854775808 = 0) := fun hz =>
    hnz ((widenF4_zero_iff w).mp hz)
  constructor
  · unfold hashfloat4 hashfloat8
    rw [if_neg hnz, if_neg h8]
  · unfold hashfloat4extended hashfloat8extended
    rw [if_neg hnz, if_neg h8]

/-- C4 witness at the float4 pattern of 1.5 (0x3FC00000), whose widening
is the float8 pattern of 1.5 (0x3FF8000000000000). -/
theorem float4_widen_agrees_witness :
    hashfloat4 (fun b => b.foldl (fun a c => a + c) 0) 1069547520
      = hashfloat8 (fun b => b.foldl (fun a c => a + c) 0) (widenF4 1069547520) ∧
    hashfloat4extended (fun b s => b.length + s) 1069547520 9
      = hashfloat8extended (fun b s => b.length + s) (widenF4 1069547520) 9 :=
  float4_widen_agrees (fun b => b.foldl (fun a c => a + c) 0)
    (fun b s => b.length + s) 1069547520 9 (by unfold f4IsZero; decide)

/-- C9: the zero shortcut fires exactly on IEEE equality with zero — the
result is the fixed code 0 independently of the byte-hash primitive iff
the pattern is a zero pattern; a NaN pattern never takes the shortcut and
is hashed over its full (for float4: widened) bit pattern; and two NaN
patterns that differ can receive different codes. -/
theorem float_zero_shortcut_iff_nan (w d : Nat) :
    ((∀ h : List Nat → Nat, hashfloat4 h w = 0) ↔ f4IsZero w) ∧
    ((∀ h : List Nat → Nat, hashfloat8 h d = 0) ↔ f8IsZero d) ∧
    (f4IsNaN w → ¬ f4IsZero w ∧
      ∀ h : List Nat → Nat, hashfloat4 h w = h (bytes8 (widenF4 w))) ∧
    (f8IsNaN d → ¬ f8IsZero d ∧
      ∀ h : List Nat → Nat, hashfloat8 h d = h (bytes8 d)) ∧
    (∃ (hx : List Nat → Nat) (n1 n2 : Nat), f4IsNaN n1 ∧ f4IsNaN n2 ∧ n1 ≠ n2 ∧
      hashfloat4 hx n1 ≠ hashfloat4 hx n2) := by
  refine ⟨⟨?_, ?_⟩, ⟨?_, ?_⟩, ?_, ?_, ?_⟩
  · intro hall
    by_contra hnz
    unfold f4IsZero at hnz
    have h1 := hall (fun _ => 1)
    unfold hashfloat4 at h1
    rw [if_neg hnz] at h1
    exact one_ne_zero h1
  · intro hz h
    unfold f4IsZero at hz
    unfold hashfloat4
    rw [if_pos hz]
  · intro hall
    by_contra hnz
    unfold f8IsZero at hnz
    have h1 := hall (fun _ => 1)
    unfold hashfloat8 at h1
    rw [if_neg hnz] at h1
    exact one_ne_zero h1
  · intro hz h
    unfold f8IsZero at hz
    unfold hashfloat8
    rw [if_pos hz]
  · intro hnan
    unfold f4IsNaN at hnan
    have hnz : ¬ (w % 2147483648 = 0) := by omega
    refine ⟨hnz, ?_⟩
    intro h
    unfold hashfloat4
    rw [if_neg hnz]
  · intro hnan
    unfold f8IsNaN at hnan
    have hnz : ¬ (d % 9223372036854775808 = 0) := by omega
    refine ⟨hnz, ?_⟩
    intro h
    unfold hashfloat8
    rw [if_neg hnz]
  · refine ⟨fun b => if b = bytes8 (widenF4 2143289344) then 0 else 1,
      2143289344, 2143289345, ?_, ?_, ?_, ?_⟩
    · unfold f4IsNaN; decide
    · unfold f4IsNaN; decide
    · decide
    · unfold hashfloat4 widenF4 bytes8; decide

/-!
Object-identifier vector section.  An oidvector argument carries dim1
elements of type Oid (uint32); hashoidvector hashes the contiguous span of
the element array, dim1 * sizeof(Oid) bytes.  The vector is embedded as
the list of its element values and the span as the concatenation of the
four little-endian bytes of each element in order.
-/

/-- The four bytes of one Oid element as laid out in the values array. -/
def oidBytes (v : Nat) : List Nat :=
  [v % 256, v / 256 % 256, v / 65536 % 256, v / 16777216 % 256]

/-- The contiguous byte span (unsigned char *) key->values of length
dim1 * sizeof(Oid): element encodings concatenated in order. -/
def oidvecBytes : List Nat → List Nat
  | [] => []
  | o :: rest => oidBytes o ++ oidvecBytes rest

/-- hashoidvector (hashfunc.c lines 207-213): hash_any over the element
span. -/
def hashoidvector (h : List Nat → Nat) (ov : List Nat) : Nat := h (oidvecBytes ov)

/-- hashoidvectorextended (hashfunc.c lines 215-223). -/
def hashoidvectorextended (h2 : List Nat → Nat → Nat) (ov : List Nat)
    (seed : Nat) : Nat :=
  h2 (oidvecBytes ov) seed

theorem oidvecBytes_length (ov : List Nat) :
    (oidvecBytes ov).length = 4 * ov.length := by
  induction ov with
  | nil => rfl
  | cons o rest ih => simp [oidvecBytes, oidBytes, ih]; omega

theorem oidBytes_inj (a b : Nat) (ha : a < 4294967296) (hb : b < 4294967296)
    (h : oidBytes a = oidBytes b) : a = b := by
  unfold oidBytes at h
  simp only [List.cons.injEq, and_true] at h
  omega

theorem oidvecBytes_inj (v1 : List Nat) : ∀ v2 : List Nat,
    (∀ o ∈ v1, o < 4294967296) → (∀ o ∈ v2, o < 4294967296) →
    oidvecBytes v1 = oidvecBytes v2 → v1 = v2 := by
  induction v1 with
  | nil =>
    intro v2 _ _ h
    cases v2 with
    | nil => rfl
    | cons b r2 => simp [oidvecBytes, oidBytes] at h
  | cons a r1 ih =>
    intro v2 hb1 hb2 h
    cases v2 with
    | nil => simp [oidvecBytes, oidBytes] at h
    | cons b r2 =>
      unfold oidvecBytes at h
      have hlen : (oidBytes a).length = (oidBytes b).length := by simp [oidBytes]
      obtain ⟨hhead, htail⟩ := List.append_inj h hlen
      have ha := hb1 a (by simp)
      have hbb := hb2 b (by simp)
      have hab : a = b := oidBytes_inj a b ha hbb hhead
      subst hab
      have := ih r2 (fun o ho => hb1 o (by simp [ho]))
        (fun o ho => hb2 o (by simp [ho])) htail
      rw [this]

/-- C5: the oidvector hashers pass to the primitive exactly the contiguous
span of 4 bytes per element in element order; the span determines and is
determined by the vector (same length, element-wise equal in order), so
the hashers agree on two vectors under every primitive exactly when the
vectors are equal. -/
theorem oidvector_hash_span (h2 : List Nat → Nat → Nat)
    (v1 v2 : List Nat) (s : Nat)
    (hb1 : ∀ o ∈ v1, o < 4294967296) (hb2 : ∀ o ∈ v2, o < 4294967296) :
    ((∀ h : List Nat → Nat, hashoidvector h v1 = h (oidvecBytes v1)) ∧
      hashoidvectorextended h2 v1 s = h2 (oidvecBytes v1) s) ∧
    (oidvecBytes v1).length = 4 * v1.length ∧
    (oidvecBytes v1 = oidvecBytes v2 ↔ v1 = v2) ∧
    ((∀ h : List Nat → Nat, hashoidvector h v1 = hashoidvector h v2) ↔ v1 = v2) := by
  refine ⟨⟨fun h => rfl, rfl⟩, oidvecBytes_length v1, ?_, ?_⟩
  · constructor
    · exact oidvecBytes_inj v1 v2 hb1 hb2
    · intro he; rw [he]
  · constructor
    · intro hall
      have := hall (fun b => if b = oidvecBytes v1 then 0 else 1)
      simp only [hashoidvector] at this
      by_cases hsp : oidvecBytes v2 = oidvecBytes v1
      · exact oidvecBytes_inj v1 v2 hb1 hb2 hsp.symm
      · rw [if_neg hsp] at this
        simp at this
    · intro he h; rw [he]

/-- C5 witness at the vectors [1, 2, 3] and [3, 2, 1]. -/
theorem oidvector_hash_span_witness :
    ((∀ h : List Nat → Nat,
        hashoidvector h [1, 2, 3] = h (oidvecBytes [1, 2, 3])) ∧
      hashoidvectorextended (fun b s => b.length + s) [1, 2, 3] 5
        = (fun (b : List Nat) (s : Nat) => b.length + s) (oidvecBytes [1, 2, 3]) 5) ∧
    (oidvecBytes [1, 2, 3]).length = 4 * ([1, 2, 3] : List Nat).length ∧
    (oidvecBytes [1, 2, 3] = oidvecBytes [3, 2, 1]
      ↔ ([1, 2, 3] : List Nat) = [3, 2, 1]) ∧
    ((∀ h : List Nat → Nat, hashoidvector h [1, 2, 3] = hashoidvector h [3, 2, 1])
      ↔ ([1, 2, 3] : List Nat) = [3, 2, 1]) :=
  oidvector_hash_span (fun b s => b.length + s) [1, 2, 3] [3, 2, 1] 5
    (by decide) (by decide)

/-!
Fixed-length name section.  A Name argument is a fixed-size NUL-terminated
character buffer; NameStr yields the char pointer and strlen measures the
content bytes before the first NUL, so hash_any sees only the content,
never the terminator or the trailing padding.  The buffer is embedded as
the list of its bytes.
-/

/-- strlen over a byte buffer: bytes before the first zero byte. -/
def cStrlen : List Nat → Nat
  | [] => 0
  | b :: rest => if b = 0 then 0 else cStrlen rest + 1

/-- hashname (hashfunc.c lines 225-231): hash_any(NameStr(key),
strlen(NameStr(key))). -/
def hashname (h : List Nat → Nat) (buf : List Nat) : Nat :=
  h (buf.take (cStrlen buf))

/-- hashnameextended (hashfunc.c lines 233-240). -/
def hashnameextended (h2 : List Nat → Nat → Nat) (buf : List Nat)
    (seed : Nat) : Nat :=
  h2 (buf.take (cStrlen buf)) seed

theorem cStrlen_append (content pad : List Nat) (hc : 0 ∉ content) :
    cStrlen (content ++ 0 :: pad) = content.length := by
  induction content with
  | nil => simp [cStrlen]
  | cons c rest ih =>
    have hc0 : c ≠ 0 := fun h => hc (by simp [h])
    simp only [List.cons_append, cStrlen, if_neg hc0, List.length_cons]
    have := ih (fun h => hc (by simp [h]))
    simp only [List.append_eq] at this ⊢
    omega

theorem take_content (content pad : List Nat) (hc : 0 ∉ content) :
    (content ++ 0 :: pad).take (cStrlen (content ++ 0 :: pad)) = content := by
  rw [cStrlen_append content pad hc]
  exact List.take_left content (0 :: pad)

/-- C7: the name hashers hash exactly the content bytes preceding the
terminator, so the result is unchanged under any replacement of the
trailing padding, plain and seeded. -/
theorem name_hash_ignores_padding (h : List Nat → Nat) (h2 : List Nat → Nat → Nat)
    (content pad pad2 : List Nat) (s : Nat) (hc : 0 ∉ content) :
    (hashname h (content ++ 0 :: pad) = h content ∧
      hashname h (content ++ 0 :: pad2) = hashname h (content ++ 0 :: pad)) ∧
    (hashnameextended h2 (content ++ 0 :: pad) s = h2 content s ∧
      hashnameextended h2 (content ++ 0 :: pad2) s
        = hashnameextended h2 (content ++ 0 :: pad) s) := by
  unfold hashname hashnameextended
  rw [take_content content pad hc, take_content content pad2 hc]
  exact ⟨⟨rfl, rfl⟩, rfl, rfl⟩

/-- C7 witness: the buffer with content bytes 97, 98 and two different
paddings. -/
theorem name_hash_ignores_padding_witness :
    (hashname (fun b => b.length) ([97, 98] ++ 0 :: [1, 2])
        = (fun (b : List Nat) => b.length) [97, 98] ∧
      hashname (fun b => b.length) ([97, 98] ++ 0 :: [3])
        = hashname (fun b => b.length) ([97, 98] ++ 0 :: [1, 2])) ∧
    (hashnameextended (fun b s => b.length + s) ([97, 98] ++ 0 :: [1, 2]) 4
        = (fun (b : List Nat) (s : Nat) => b.length + s) [97, 98] 4 ∧
      hashnameextended (fun b s => b.length + s) ([97, 98] ++ 0 :: [3]) 4
        = hashnameextended (fun b s => b.length + s) ([97, 98] ++ 0 :: [1, 2]) 4) :=
  name_hash_ignores_padding (fun b => b.length) (fun b s => b.length + s)
    [97, 98] [1, 2] [3] 4 (by decide)

/-!
Variable-length section (text and generic varlena).

Modelled from the spec: the argument-fetch macros PG_GETARG_TEXT_PP and
PG_GETARG_VARLENA_PP, the span accessors VARDATA_ANY and
VARSIZE_ANY_EXHDR, and the release macro PG_FREE_IF_COPY are declared in
headers outside this source slice.  Per the specification, fetching a
variable-length argument materializes its logical byte span, possibly
producing a transient decompressed copy, and that transient copy must be
released before the function returns.  A fetched argument is embedded as
its logical byte span together with a flag recording whether the fetch
produced a transient copy; each hasher returns the hash code paired with
the number of transient allocations still live when it returns.
-/

/-- A fetched variable-length argument: the logical byte span
(VARDATA_ANY / VARSIZE_ANY_EXHDR view) and whether the fetch made a
transient copy. -/
structure VarArg where
  bytes : List Nat
  isCopy : Bool

/-- Transient allocations live right after the argument fetch. -/
def allocsAfterFetch (a : VarArg) : Nat := if a.isCopy then 1 else 0

/-- Allocations released by PG_FREE_IF_COPY: the transient copy exactly
when one was made. -/
def allocsFreed (a : VarArg) : Nat := if a.isCopy then 1 else 0

/-- hashtext (hashfunc.c lines 242-260): hash_any over the logical span,
then PG_FREE_IF_COPY, then return.  Result: hash code and live transient
allocations at return. -/
def hashtext (h : List Nat → Nat) (key : VarArg) : Nat × Nat :=
  (h key.bytes, allocsAfterFetch key - allocsFreed key)

/-- hashtextextended (hashfunc.c lines 262-276). -/
def hashtextextended (h2 : List Nat → Nat → Nat) (key : VarArg)
    (seed : Nat) : Nat × Nat :=
  (h2 key.bytes seed, allocsAfterFetch key - allocsFreed key)

/-- hashvarlena (hashfunc.c lines 282-295). -/
def hashvarlena (h : List Nat → Nat) (key : VarArg) : Nat × Nat :=
  (h key.bytes, allocsAfterFetch key - allocsFreed key)

/-- hashvarlenaextended (hashfunc.c lines 297-310). -/
def hashvarlenaextended (h2 : List Nat → Nat → Nat) (key : VarArg)
    (seed : Nat) : Nat × Nat :=
  (h2 key.bytes seed, allocsAfterFetch key - allocsFreed key)

/-- C6: on arguments exposing identical logical bytes, hashtext and
hashvarlena coincide (hash code and resource effect), and likewise the
seeded variants for every seed, under every byte-hash primitive. -/
theorem text_hash_eq_varlena_hash (h : List Nat → Nat) (h2 : List Nat → Nat → Nat)
    (t v : VarArg) (s : Nat) (hb : t.bytes = v.bytes) :
    hashtext h t = hashvarlena h v ∧
    hashtextextended h2 t s = hashvarlenaextended h2 v s := by
  have ht : allocsAfterFetch t - allocsFreed t = allocsAfterFetch v - allocsFreed v := by
    unfold allocsAfterFetch allocsFreed
    rcases t.isCopy <;> rcases v.isCopy <;> rfl
  unfold hashtext hashvarlena hashtextextended hashvarlenaextended
  rw [hb, ht]
  exact ⟨rfl, rfl⟩

/-- C6 witness: a text and a varlena argument both holding bytes 97, 98,
99, one of them a transient copy. -/
theorem text_hash_eq_varlena_hash_witness :
    hashtext (fun b => b.length) ⟨[97, 98, 99], true⟩
        = hashvarlena (fun b => b.length) ⟨[97, 98, 99], false⟩ ∧
    hashtextextended (fun b s => b.length + s) ⟨[97, 98, 99], true⟩ 6
        = hashvarlenaextended (fun b s => b.length + s) ⟨[97, 98, 99], false⟩ 6 :=
  text_hash_eq_varlena_hash (fun b => b.length) (fun b s => b.length + s)
    ⟨[97, 98, 99], true⟩ ⟨[97, 98, 99], false⟩ 6 rfl

/-- C8: every variable-length hasher releases the transient copy before
returning: on every input (copied or not) the count of live transient
allocations at return is zero. -/
theorem varlena_hash_no_leak (h : List Nat → Nat) (h2 : List Nat → Nat → Nat)
    (t : VarArg) (s : Nat) :
    (hashtext h t).2 = 0 ∧ (hashtextextended h2 t s).2 = 0 ∧
    (hashvarlena h t).2 = 0 ∧ (hashvarlenaextended h2 t s).2 = 0 := by
  unfold hashtext hashtextextended hashvarlena hashvarlenaextended
  unfold allocsAfterFetch allocsFreed
  rcases t.isCopy <;> exact ⟨rfl, rfl, rfl, rfl⟩
